import Mathlib

/-!
# fetcher: a shallow embedding of `fetcher.go`

Go strings are embedded as Lean strings and, inside the string helpers, as
lists of characters (the inputs are taken to be valid UTF-8; every pattern
the program searches for is ASCII, so searching by character and searching
by byte agree).

* `sanitizeFilename`, `parseHeaders` are pure functions.
* `fetchURL` talks to the network and the file system.  Those are made
  explicit as a `FetchEnv` (what `http.NewRequest`, the successive
  `client.Do` calls, `ioutil.ReadAll` and `ioutil.WriteFile` answer) and the
  effects of a call are returned as a `FetchTrace`.
* The dispatcher of `main` (wait group, semaphore channel, mutex, counter and
  the worker goroutines) is a small-step machine: `step` moves one thread,
  `exec` runs a schedule.
-/

namespace Fetcher

/-! ## String helpers (Go package `strings`) -/

/-- Go `strings.ReplaceAll(s, old, new)` for a non-empty `old`, scanning left
to right.  The first argument counts the characters of a match that are still
to be skipped; at `0` the scan looks for `old` at the current position, and on
a match emits `new` and skips the `len(old)` matched characters. -/
def replaceFrom (old new : List Char) : Nat → List Char → List Char
  | _, [] => []
  | skip + 1, _ :: cs => replaceFrom old new skip cs
  | 0, c :: cs =>
    if old.isPrefixOf (c :: cs) then new ++ replaceFrom old new (old.length - 1) cs
    else c :: replaceFrom old new 0 cs

/-- Go `strings.ReplaceAll` (non-empty `old`). -/
def replaceAll (s old new : List Char) : List Char :=
  replaceFrom old new 0 s

/-- Go `strings.Contains(s, sub)`. -/
def contains : List Char → List Char → Bool
  | [], sub => sub.isPrefixOf []
  | c :: cs, sub => sub.isPrefixOf (c :: cs) || contains cs sub

/-- Go `strings.TrimPrefix(s, p)`. -/
def trimPrefix (s p : List Char) : List Char :=
  if p.isPrefixOf s then s.drop p.length else s

/-- Go `strings.IndexByte`-style search: position of the first `sep`. -/
def index (sep : Char) : List Char → Option Nat
  | [] => none
  | c :: cs => if c = sep then some 0 else (index sep cs).map (· + 1)

/-- Go `strings.Split(s, sep)` for a one-character separator: the pieces
between the separators, in order (`Split("", ",")` is `[""]`). -/
def split (sep : Char) : List Char → List (List Char)
  | [] => [[]]
  | c :: cs =>
    if c = sep then [] :: split sep cs
    else
      match split sep cs with
      | [] => [[c]]
      | seg :: segs => (c :: seg) :: segs

/-- Go `strings.SplitN(s, sep, n)` for `n ≥ 0` and a one-character separator:
at most `n` pieces, the last one holding the unsplit remainder. -/
def splitN (sep : Char) : Nat → List Char → List (List Char)
  | 0, _ => []
  | 1, s => [s]
  | n + 2, s =>
    match index sep s with
    | none => [s]
    | some m => s.take m :: splitN sep (n + 1) (s.drop (m + 1))

/-- Go `unicode.IsSpace`. -/
def isSpace (c : Char) : Bool :=
  let n := c.toNat
  n = 0x09 || n = 0x0A || n = 0x0B || n = 0x0C || n = 0x0D || n = 0x20 ||
  n = 0x85 || n = 0xA0 || n = 0x1680 || (0x2000 ≤ n && n ≤ 0x200A) ||
  n = 0x2028 || n = 0x2029 || n = 0x202F || n = 0x205F || n = 0x3000

/-- Go `strings.TrimSpace`. -/
def trimSpace (s : List Char) : List Char :=
  ((s.dropWhile isSpace).reverse.dropWhile isSpace).reverse

/-! ## `sanitizeFilename` -/

/-- Source `sanitizeFilename` (fetcher.go:239-244): three `ReplaceAll`s. -/
def sanitizeFilename (urlStr : String) : String :=
  let urlStr := replaceAll urlStr.toList "http://".toList "".toList
  let urlStr := replaceAll urlStr "https://".toList "".toList
  let urlStr := replaceAll urlStr "/".toList "_".toList
  String.mk urlStr

/-- The sanitizer as the specification words it: strip the literal prefix
`http://` if present, strip the literal prefix `https://` if present, then
replace every `/` with `_`. -/
def sanitizeSpec (u : String) : String :=
  let r := trimPrefix (trimPrefix u.toList "http://".toList) "https://".toList
  String.mk (r.map (fun c => if c = '/' then '_' else c))

/-! ## `parseHeaders` -/

/-- Go `map[string]string`, as an association list with at most one entry per
key. -/
abbrev HeaderMap := List (String × String)

/-- Map assignment `m[k] = v`: the entry for `k` is replaced. -/
def HeaderMap.set (m : HeaderMap) (k v : String) : HeaderMap :=
  (k, v) :: m.filter (fun e => e.1 ≠ k)

/-- Source `parseHeaders` (fetcher.go:207-220). -/
def parseHeaders (headerStr : String) : HeaderMap :=
  if headerStr = "" then []
  else
    (split ',' headerStr.toList).foldl
      (fun headers pair =>
        let parts := splitN ':' 2 pair
        if parts.length = 2 then
          HeaderMap.set headers (String.mk (trimSpace (parts.getD 0 [])))
            (String.mk (trimSpace (parts.getD 1 [])))
        else headers)
      []

/-- The header grammar as the specification words it: split on `,`; a segment
without `:` is skipped; otherwise the key is the text before the first `:` and
the value the text after it, both trimmed; later keys overwrite. -/
def parseHeadersSpec (s : String) : HeaderMap :=
  (split ',' s.toList).foldl
    (fun m seg =>
      if ':' ∈ seg then
        HeaderMap.set m (String.mk (trimSpace (seg.takeWhile (· ≠ ':'))))
          (String.mk (trimSpace ((seg.dropWhile (· ≠ ':')).drop 1)))
      else m)
    []

/-! ## `fetchURL` -/

/-- Source `FetchConfig` (fetcher.go:21-30).  `timeout` is the duration in
nanoseconds. -/
structure FetchConfig where
  threads : Int
  directory : String
  retries : Int
  timeout : Int
  headers : HeaderMap
  randomAgent : Bool
  proxy : String
  silent : Bool

/-- A response body or a file content: a sequence of bytes. -/
abbrev Bytes := List UInt8

/-- What one `client.Do(req)` yields: a transport error, or a response with its
status code and what `ioutil.ReadAll(resp.Body)` then gives (`none` is a read
error, `some b` the complete body). -/
inductive DoResult where
  | transportErr
  | response (status : Int) (body : Option Bytes)
  deriving DecidableEq, Repr

/-- The outside world as one `fetchURL` call meets it. -/
structure FetchEnv where
  /-- Go `http.NewRequest("GET", url, nil)` returns an error. -/
  newRequestErr : Bool
  /-- The value `doResult k` is the result of the call's `k`-th `client.Do` (from 0). -/
  doResult : Nat → DoResult
  /-- Go `ioutil.WriteFile(path, body, 0644)` returns an error. -/
  writeErr : String → Bytes → Bool
  /-- Go `filepath.Join`. -/
  join : String → String → String

/-- One print call of the program, named after its format string. -/
inductive OutLine where
  /-- Prints `[x] Failed to create directory: [%v]` -/
  | mkdirFailed
  /-- Prints `[x] Failed to read file: [%v]` -/
  | readFileFailed
  /-- Prints `[x] Failed to create request for  [%s]: [%v]` -/
  | requestFailed (url : String)
  /-- Prints `[x] Failed [%s] after [%d] attempts` -/
  | failedAfter (url : String) (n : Int)
  /-- Prints `[x] Status [%d] [%s]` -/
  | badStatus (code : Int) (url : String)
  /-- Prints `[x] Failed to read response body for [%s] after [%d] attempts` -/
  | readFailed (url : String) (n : Int)
  /-- Prints `[x] Failed to write to file [%s]: [%v]` -/
  | writeFailed (filename : String)
  /-- Prints `[>] Fetched: [%s]` -/
  | fetched (url : String)
  /-- Go `fmt.Printf("%s\n", url)`: the bare URL. -/
  | bare (url : String)
  /-- Prints `---` -/
  | rule
  /-- Prints `[>] URLs provided [%d]` -/
  | urlsProvided (n : Nat)
  /-- Prints `---`, `[>] Successfully fetched [%d/%d] URLs`, `---` (one call). -/
  | summary (k n : Nat)
  deriving DecidableEq, Repr

/-- One `ioutil.WriteFile(path, content, mode)` call and whether it
succeeded. -/
structure FileWrite where
  path : String
  content : Bytes
  mode : Nat
  ok : Bool
  deriving DecidableEq, Repr

/-- The effects of a `fetchURL` call so far: the number of `client.Do` calls,
the file writes and the lines printed, oldest first. -/
structure FetchTrace where
  calls : Nat
  writes : List FileWrite
  out : List OutLine
  deriving DecidableEq, Repr

/-- Printing `l` unless the run is silent (`if !config.silent { ... }`). -/
def FetchTrace.log (t : FetchTrace) (config : FetchConfig) (l : OutLine) : FetchTrace :=
  if config.silent then t else { t with out := t.out ++ [l] }

/-- The retry loop of `fetchURL` (fetcher.go:139-188),
`for i := 0; i <= config.retries; i++`.  The first argument bounds the
iterations still to run; `fetchURL` starts it at `retries + 1`, the number of
values `i` takes, and at `0` the loop has ended and line 188 returns false.
Every path of the iteration with `i = retries` returns, so `i` never passes
`retries` and the Go `int` does not wrap. -/
def fetchLoop (url : String) (config : FetchConfig) (env : FetchEnv) :
    Nat → Int → FetchTrace → Bool × FetchTrace
  | 0, _, t => (false, t)
  | fuel + 1, i, t =>
    if i ≤ config.retries then
      let t1 : FetchTrace := { t with calls := t.calls + 1 }
      match env.doResult t.calls with
      | .transportErr =>
        if i = config.retries then
          (false, t1.log config (.failedAfter url config.retries))
        else fetchLoop url config env fuel (i + 1) t1
      | .response status body =>
        if status ≠ 200 then
          (false, t1.log config (.badStatus status url))
        else
          match body with
          | none =>
            if i = config.retries then
              (false, t1.log config (.readFailed url (config.retries + 1)))
            else fetchLoop url config env fuel (i + 1) t1
          | some b =>
            let filename := env.join config.directory (sanitizeFilename url)
            let err := env.writeErr filename b
            let t2 : FetchTrace :=
              { t1 with writes := t1.writes ++ [⟨filename, b, 0o644, !err⟩] }
            if err then
              (false, t2.log config (.writeFailed filename))
            else if !config.silent then
              (true, { t2 with out := t2.out ++ [.fetched url] })
            else
              (true, { t2 with out := t2.out ++ [.bare url] })
    else (false, t)

/-- Source `fetchURL` (fetcher.go:121-189): the result and the effects.  The
headers put on the request (lines 131-137) and the client built by
`createHTTPClient` act only through what the client answers, which is the
environment's `doResult`. -/
def fetchURL (url : String) (config : FetchConfig) (env : FetchEnv) :
    Bool × FetchTrace :=
  let t0 : FetchTrace := ⟨0, [], []⟩
  if env.newRequestErr then
    (false, t0.log config (.requestFailed url))
  else
    fetchLoop url config env (config.retries + 1).toNat 0 t0

/-! ## The dispatcher of `main` (fetcher.go:72-117) -/

/-- Where the main goroutine stands. -/
inductive MainPc where
  /-- At the head of `for _, url := range urls` (line 93). -/
  | loopHead
  /-- After `wg.Add(1)`, at the send `semaphore <- struct{}{}` (line 95). -/
  | send (url : String)
  /-- After the send, at the `go` statement (line 96). -/
  | spawn (url : String)
  /-- At the three banner prints (lines 109, 110, 111). -/
  | banner1
  | banner2
  | banner3
  /-- At `wg.Wait()` (line 114). -/
  | wait
  /-- At `if !config.silent` (line 115). -/
  | summary
  /-- Returned from `main`. -/
  | done
  deriving DecidableEq, Repr

/-- Where a worker goroutine (lines 96-105) stands. -/
inductive WorkerPc where
  /-- Launched; `fetchURL(url, config)` has not returned yet (line 99). -/
  | fetch
  /-- At `if success` (line 100). -/
  | check
  /-- At `mu.Lock()` (line 101). -/
  | lock
  /-- Holding the mutex, about to read `successCount` (line 102). -/
  | load
  /-- Holding the mutex and the value read, about to write it back plus one. -/
  | store (v : Nat)
  /-- At `mu.Unlock()` (line 103). -/
  | unlock
  /-- At the deferred `<-semaphore` (line 98). -/
  | release
  /-- At the deferred `wg.Done()` (line 97). -/
  | wgDone
  /-- The goroutine has ended. -/
  | exited
  deriving DecidableEq, Repr

/-- A worker goroutine: its argument `url`, its local `success` (meaningful
once `fetchURL` has returned) and its program point. -/
structure Worker where
  url : String
  success : Bool
  pc : WorkerPc
  deriving DecidableEq, Repr

/-- The state of a run of the dispatcher. -/
structure DState where
  /-- The program point of `main`. -/
  pc : MainPc
  /-- The URLs the `range` loop has not reached yet. -/
  pending : List String
  /-- The worker goroutines, in launch order. -/
  workers : List Worker
  /-- The number of items in the buffer of the channel `semaphore`. -/
  sem : Nat
  /-- The counter of the wait group `wg`. -/
  wg : Nat
  /-- Whether the mutex `mu` is locked. -/
  mu : Bool
  /-- The variable `successCount`. -/
  successCount : Nat
  /-- What has been printed, oldest first. -/
  out : List OutLine
  /-- The `ioutil.WriteFile` calls made, oldest first. -/
  files : List FileWrite
  deriving DecidableEq, Repr

/-- The inputs of a run that the program does not compute: the URL list
(`readLines`), and for each URL the world its `fetchURL` call meets. -/
structure Run where
  config : FetchConfig
  urls : List String
  world : String → FetchEnv

/-- A scheduling choice: the main goroutine moves, or the `i`-th launched
worker does. -/
inductive Action where
  | main
  | worker (i : Nat)
  deriving DecidableEq, Repr

/-- The state when the loop of line 93 is reached: `semaphore`, `successCount`
and `mu` freshly made (lines 88-91).  `make(chan struct{}, n)` with a negative
`n` panics, so there is no such state then. -/
def init (r : Run) : Option DState :=
  if r.config.threads < 0 then none
  else some ⟨.loopHead, r.urls, [], 0, 0, false, 0, [], []⟩

/-- A run of `main` from after the configuration is built (line 72) up to the
loop: either it has already returned (directory creation or the reading of
the input file failed; `lines` is `none` for a read error), or the dispatcher
starts on the lines read. -/
def start (config : FetchConfig) (world : String → FetchEnv) (mkdirErr : Bool)
    (lines : Option (List String)) : Option (Run × DState) :=
  if mkdirErr then
    some (⟨config, [], world⟩,
      ⟨.done, [], [], 0, 0, false, 0, if config.silent then [] else [.mkdirFailed], []⟩)
  else
    match lines with
    | none =>
      some (⟨config, [], world⟩,
        ⟨.done, [], [], 0, 0, false, 0, if config.silent then [] else [.readFileFailed], []⟩)
    | some urls => (init ⟨config, urls, world⟩).map (fun s => (⟨config, urls, world⟩, s))

/-- One move of the main goroutine; `none` when it is blocked or has
returned. -/
def stepMain (r : Run) (s : DState) : Option DState :=
  match s.pc with
  | .loopHead =>
    match s.pending with
    | [] => some { s with pc := .banner1 }
    | url :: rest => some { s with pc := .send url, pending := rest, wg := s.wg + 1 }
  | .send url =>
    if s.sem < r.config.threads.toNat then some { s with pc := .spawn url, sem := s.sem + 1 }
    else none
  | .spawn url =>
    some { s with pc := .loopHead, workers := s.workers ++ [⟨url, false, .fetch⟩] }
  | .banner1 => some { s with pc := .banner2, out := s.out ++ [.rule] }
  | .banner2 => some { s with pc := .banner3, out := s.out ++ [.urlsProvided r.urls.length] }
  | .banner3 => some { s with pc := .wait, out := s.out ++ [.rule] }
  | .wait => if s.wg = 0 then some { s with pc := .summary } else none
  | .summary =>
    if !r.config.silent then
      some { s with pc := .done, out := s.out ++ [.summary s.successCount r.urls.length] }
    else some { s with pc := .done }
  | .done => none

/-- One move of the worker `w`, the `i`-th launched; `none` when it is blocked
or has ended. -/
def stepWorker (r : Run) (s : DState) (i : Nat) (w : Worker) : Option DState :=
  match w.pc with
  | .fetch =>
    let res := fetchURL w.url r.config (r.world w.url)
    some { s with
      workers := s.workers.set i { w with success := res.1, pc := .check },
      out := s.out ++ res.2.out,
      files := s.files ++ res.2.writes }
  | .check =>
    if w.success then some { s with workers := s.workers.set i { w with pc := .lock } }
    else some { s with workers := s.workers.set i { w with pc := .release } }
  | .lock =>
    if s.mu then none
    else some { s with workers := s.workers.set i { w with pc := .load }, mu := true }
  | .load =>
    some { s with workers := s.workers.set i { w with pc := .store s.successCount } }
  | .store v =>
    some { s with workers := s.workers.set i { w with pc := .unlock }, successCount := v + 1 }
  | .unlock =>
    some { s with workers := s.workers.set i { w with pc := .release }, mu := false }
  | .release =>
    if 0 < s.sem then
      some { s with workers := s.workers.set i { w with pc := .wgDone }, sem := s.sem - 1 }
    else none
  | .wgDone =>
    if 0 < s.wg then
      some { s with workers := s.workers.set i { w with pc := .exited }, wg := s.wg - 1 }
    else none
  | .exited => none

/-- One move of the thread that the action names. -/
def step (r : Run) (s : DState) : Action → Option DState
  | .main => stepMain r s
  | .worker i =>
    match s.workers[i]? with
    | none => none
    | some w => stepWorker r s i w

/-- Running a schedule, move by move; `none` when a scheduled thread cannot
move. -/
def exec (r : Run) (s : DState) : List Action → Option DState
  | [] => some s
  | a :: as =>
    match step r s a with
    | none => none
    | some s1 => exec r s1 as

/-- The states of a run: those some schedule leads to from the initial
state. -/
def Reachable (r : Run) (s : DState) : Prop :=
  ∃ s0 sched, init r = some s0 ∧ exec r s0 sched = some s

/-- The number of fetches in flight: the workers launched whose `fetchURL`
call has not returned. -/
def inFlight (s : DState) : Nat :=
  s.workers.countP (fun w => w.pc = .fetch)

/-! ## Bookkeeping for the dispatcher invariants -/

/-- The worker still holds the semaphore slot acquired for it. -/
def holdsSlot (w : Worker) : Bool :=
  match w.pc with
  | .wgDone | .exited => false
  | _ => true

/-- The worker has not yet called `wg.Done()`. -/
def live (w : Worker) : Bool :=
  match w.pc with
  | .exited => false
  | _ => true

/-- The worker holds the mutex. -/
def inCS (w : Worker) : Bool :=
  match w.pc with
  | .load | .store _ | .unlock => true
  | _ => false

/-- The worker is between its read and its write of `successCount`. -/
def atStore (w : Worker) : Bool :=
  match w.pc with
  | .store _ => true
  | _ => false

/-- The worker's `fetchURL` succeeded and it is between `mu.Lock()` and
`mu.Unlock()`. -/
def inLocked (w : Worker) : Bool :=
  match w.pc with
  | .lock | .load | .store _ | .unlock => true
  | _ => false

/-- The worker has written its increment of `successCount`. -/
def counted (w : Worker) : Bool :=
  w.success &&
    match w.pc with
    | .unlock | .release | .wgDone | .exited => true
    | _ => false

/-- The URL the main goroutine has taken from the list and not yet handed to
a worker. -/
def current : MainPc → List String
  | .send url => [url]
  | .spawn url => [url]
  | _ => []

/-- The slots the main goroutine has acquired for a worker not yet launched. -/
def slotMain : MainPc → Nat
  | .spawn _ => 1
  | _ => 0

/-- The wait-group units the main goroutine has added for a worker not yet
launched. -/
def wgMain : MainPc → Nat
  | .send _ => 1
  | .spawn _ => 1
  | _ => 0

/-- The main goroutine has left the dispatch loop. -/
def pastLoop : MainPc → Bool
  | .loopHead => false
  | .send _ => false
  | .spawn _ => false
  | _ => true

/-- The main goroutine has returned from `wg.Wait()`. -/
def pastWait : MainPc → Bool
  | .summary => true
  | .done => true
  | _ => false

/-- The number of URLs of the list, with multiplicity, whose `fetchURL` call
returns true. -/
def expected (r : Run) : Nat :=
  r.urls.countP (fun u => (fetchURL u r.config (r.world u)).1)

/-- The invariant of the dispatcher. -/
structure Inv (r : Run) (s : DState) : Prop where
  sem_eq : s.sem = s.workers.countP holdsSlot + slotMain s.pc
  sem_le : s.sem ≤ r.config.threads.toNat
  wg_eq : s.wg = s.workers.countP live + wgMain s.pc
  mu_eq : s.workers.countP inCS = if s.mu then 1 else 0
  store_val : ∀ w ∈ s.workers, ∀ v, w.pc = .store v → v = s.successCount
  locked_ok : ∀ w ∈ s.workers, inLocked w = true → w.success = true
  count_eq : s.successCount = s.workers.countP counted
  result : ∀ w ∈ s.workers, w.pc ≠ .fetch →
    w.success = (fetchURL w.url r.config (r.world w.url)).1
  urls_eq : s.workers.map (·.url) ++ current s.pc ++ s.pending = r.urls
  past_loop : pastLoop s.pc = true → s.pending = []
  finished : pastWait s.pc = true → ∀ w ∈ s.workers, w.pc = .exited
  summary_out : ∀ k n, OutLine.summary k n ∈ s.out → k = expected r ∧ n = r.urls.length
  done_out : s.pc = .done → r.config.silent = false → ∃ k n, OutLine.summary k n ∈ s.out

/-! ## Schedules and concrete runs -/

/-- The schedule that lets the last launched worker, at index `n`, run from
its launch to its end: eight moves when its fetch succeeds, four when not. -/
def workerSchedule (success : Bool) (n : Nat) : List Action :=
  List.replicate (if success then 8 else 4) (.worker n)

/-- The sequential schedule: each URL is dispatched and its worker runs to its
end before the next URL is taken; `n` workers have been launched before. -/
def sequentialSchedule (r : Run) : Nat → List String → List Action
  | _, [] => List.replicate 6 .main
  | n, u :: rest =>
    List.replicate 3 .main ++ workerSchedule (fetchURL u r.config (r.world u)).1 n ++
      sequentialSchedule r (n + 1) rest

/-- A configuration as the flag defaults give it, with two threads and output
directory `out`. -/
def sampleConfig : FetchConfig :=
  ⟨2, "out", 3, 12000000000, [], false, "", false⟩

/-- A world whose client fails in transport `n` times and then answers
200 OK with `body`; writes succeed. -/
def flakyEnv (n : Nat) (body : Bytes) : FetchEnv :=
  ⟨false, fun k => if k < n then .transportErr else .response 200 (some body),
    fun _ _ => false, fun d f => d ++ "/" ++ f⟩

/-- A world whose client answers every request with `status` and an empty
body; writes succeed. -/
def statusEnv (status : Int) : FetchEnv :=
  ⟨false, fun _ => .response status (some []), fun _ _ => false, fun d f => d ++ "/" ++ f⟩

/-- A run over two URLs: the first is fetched at the third attempt, the second
answers 404. -/
def sampleRun : Run :=
  ⟨sampleConfig, ["https://h/a", "https://h/b"],
    fun u => if u = "https://h/a" then flakyEnv 2 [111, 107] else statusEnv 404⟩

/-- A schedule of `sampleRun` in which both workers are in flight together. -/
def sampleSchedule : List Action :=
  [.main, .main, .main, .main, .main, .main, .worker 0, .worker 1, .worker 0, .worker 1,
    .worker 0, .worker 0, .worker 0, .worker 0, .worker 0, .worker 0, .worker 1, .worker 1,
    .main, .main, .main, .main, .main, .main]

/-- The state `sampleSchedule` leads `sampleRun` to. -/
def sampleFinal : DState :=
  ⟨.done, [], [⟨"https://h/a", true, .exited⟩, ⟨"https://h/b", false, .exited⟩], 0, 0, false, 1,
    [.fetched "https://h/a", .badStatus 404 "https://h/b", .rule, .urlsProvided 2, .rule,
      .summary 1 2],
    [⟨"out/h_a", [111, 107], 0o644, true⟩]⟩

/-- The state of `sampleRun` after the two launches and the first move of the
first worker: one fetch is over, one is in flight. -/
def sampleMid : DState :=
  ⟨.loopHead, [], [⟨"https://h/a", true, .check⟩, ⟨"https://h/b", false, .fetch⟩], 2, 2, false, 0,
    [.fetched "https://h/a"], [⟨"out/h_a", [111, 107], 0o644, true⟩]⟩

/-- The silent run of one URL that is fetched at once. -/
def silentConfig : FetchConfig :=
  { sampleConfig with silent := true }

/-! # Proofs -/

/-! ## Lemmas on the string helpers -/

theorem isPrefixOf_mem {c : Char} : ∀ {old s : List Char}, c ∈ old → old.isPrefixOf s = true → c ∈ s
  | [], _, h, _ => by simp at h
  | _ :: _, [], _, hp => by simp [List.isPrefixOf] at hp
  | a :: as, b :: bs, h, hp => by
    simp only [List.isPrefixOf, Bool.and_eq_true, beq_iff_eq] at hp
    rcases List.mem_cons.1 h with h1 | h1
    · exact List.mem_cons.2 (Or.inl (h1.trans hp.1))
    · exact List.mem_cons.2 (Or.inr (isPrefixOf_mem h1 hp.2))

theorem contains_eq_false_of_not_mem {c : Char} {old : List Char} (hc : c ∈ old) :
    ∀ {s : List Char}, c ∉ s → contains s old = false
  | [], _ => by
    cases old with
    | nil => simp at hc
    | cons a as => simp [contains, List.isPrefixOf]
  | b :: bs, h => by
    have h1 : old.isPrefixOf (b :: bs) = false := by
      cases hp : old.isPrefixOf (b :: bs) with
      | false => rfl
      | true => exact absurd (isPrefixOf_mem hc hp) h
    have h2 : contains bs old = false :=
      contains_eq_false_of_not_mem hc (fun hm => h (List.mem_cons_of_mem _ hm))
    simp [contains, h1, h2]

theorem replaceFrom_of_not_contains (old new : List Char) :
    ∀ {s : List Char}, contains s old = false → replaceFrom old new 0 s = s
  | [], _ => by simp [replaceFrom]
  | c :: cs, h => by
    simp only [contains, Bool.or_eq_false_iff] at h
    simp [replaceFrom, h.1, replaceFrom_of_not_contains old new h.2]

theorem replaceFrom_skip (old new : List Char) :
    ∀ (k : Nat) (s : List Char), replaceFrom old new k s = replaceFrom old new 0 (s.drop k)
  | 0, s => by simp
  | k + 1, [] => by simp [replaceFrom]
  | k + 1, c :: cs => by
    simp only [replaceFrom, List.drop_succ_cons]
    exact replaceFrom_skip old new k cs

theorem replaceFrom_slash :
    ∀ s : List Char, replaceFrom ['/'] ['_'] 0 s = s.map (fun c => if c = '/' then '_' else c)
  | [] => by simp [replaceFrom]
  | c :: cs => by
    by_cases h : c = '/'
    · subst h
      simp [replaceFrom, List.isPrefixOf, replaceFrom_slash cs]
    · have h1 : ('/' == c) = false := by simpa using fun h2 => h h2.symm
      simp [replaceFrom, List.isPrefixOf, h, h1, replaceFrom_slash cs]

theorem slash_not_mem_map (s : List Char) :
    '/' ∉ s.map (fun c => if c = '/' then '_' else c) := by
  intro h
  rcases List.mem_map.1 h with ⟨c, _, hc⟩
  by_cases h1 : c = '/'
  · simp [h1] at hc
  · simp [h1] at hc

theorem map_slash_of_not_mem {s : List Char} (h : '/' ∉ s) :
    s.map (fun c => if c = '/' then '_' else c) = s := by
  induction s with
  | nil => rfl
  | cons c cs ih =>
    have h1 : c ≠ '/' := fun e => h (e ▸ List.mem_cons_self _ _)
    have h2 : '/' ∉ cs := fun hm => h (List.mem_cons_of_mem _ hm)
    simp [h1, ih h2]

theorem sanitizeFilename_toList (u : String) :
    (sanitizeFilename u).toList =
      (replaceAll (replaceAll u.toList "http://".toList []) "https://".toList []).map
        (fun c => if c = '/' then '_' else c) := by
  show replaceFrom ['/'] ['_'] 0 _ = _
  rw [replaceFrom_slash]
  rfl

theorem sanitizeFilename_of_no_slash {u : String} (h : '/' ∉ u.toList) :
    sanitizeFilename u = u := by
  have e : (sanitizeFilename u).toList = u.toList := by
    rw [sanitizeFilename_toList]
    have h1 : replaceAll u.toList "http://".toList [] = u.toList :=
      replaceFrom_of_not_contains _ _ (contains_eq_false_of_not_mem (c := '/') (by decide) h)
    rw [h1]
    have h2 : replaceAll u.toList "https://".toList [] = u.toList :=
      replaceFrom_of_not_contains _ _ (contains_eq_false_of_not_mem (c := '/') (by decide) h)
    rw [h2]
    exact map_slash_of_not_mem h
  exact String.ext e

/-- C10: for every string `u`, `sanitizeFilename u` contains no `/`, and
`sanitizeFilename` is idempotent. -/
theorem sanitizeFilename_no_slash_idempotent (u : String) :
    '/' ∉ (sanitizeFilename u).toList ∧
      sanitizeFilename (sanitizeFilename u) = sanitizeFilename u := by
  have h : '/' ∉ (sanitizeFilename u).toList := by
    rw [sanitizeFilename_toList]; exact slash_not_mem_map _
  exact ⟨h, sanitizeFilename_of_no_slash h⟩

theorem replaceFrom_of_isPrefixOf {old new : List Char} (hold : old ≠ []) {s : List Char}
    (h : old.isPrefixOf s = true) :
    replaceFrom old new 0 s = new ++ replaceFrom old new 0 (s.drop old.length) := by
  cases s with
  | nil =>
    cases old with
    | nil => exact absurd rfl hold
    | cons a as => simp [List.isPrefixOf] at h
  | cons c cs =>
    cases old with
    | nil => exact absurd rfl hold
    | cons a as =>
      rw [replaceFrom, if_pos h, replaceFrom_skip]
      simp

theorem eq_append_of_isPrefixOf : ∀ {old s : List Char}, old.isPrefixOf s = true →
    s = old ++ s.drop old.length
  | [], _, _ => by simp
  | _ :: _, [], h => by simp [List.isPrefixOf] at h
  | a :: as, b :: bs, h => by
    simp only [List.isPrefixOf, Bool.and_eq_true, beq_iff_eq] at h
    have ih := eq_append_of_isPrefixOf h.2
    simp only [List.length_cons, List.drop_succ_cons, List.cons_append]
    rw [← ih, h.1]

theorem contains_http_after_https {l : List Char}
    (hp : "https://".toList.isPrefixOf l = true)
    (h : contains (l.drop 8) "http://".toList = false) :
    contains l "http://".toList = false := by
  have e : l = "https://".toList ++ l.drop 8 := eq_append_of_isPrefixOf hp
  generalize l.drop 8 = l2 at e h
  subst e
  simpa [contains, List.isPrefixOf] using h

theorem sanitize_agrees (u : String)
    (h1 : contains (trimPrefix (trimPrefix u.toList "http://".toList) "https://".toList)
      "http://".toList = false)
    (h2 : contains (trimPrefix (trimPrefix u.toList "http://".toList) "https://".toList)
      "https://".toList = false) :
    sanitizeFilename u = sanitizeSpec u := by
  apply String.ext
  show (sanitizeFilename u).toList = _
  rw [sanitizeFilename_toList]
  show _ = List.map _ _
  congr 1
  generalize u.toList = l at h1 h2 ⊢
  have key : ∀ m : List Char,
      contains (trimPrefix m "https://".toList) "http://".toList = false →
      contains (trimPrefix m "https://".toList) "https://".toList = false →
      replaceAll (replaceAll m "http://".toList []) "https://".toList [] =
        trimPrefix m "https://".toList := by
    intro m k1 k2
    unfold trimPrefix at k1 k2 ⊢
    by_cases hs : "https://".toList.isPrefixOf m = true
    · rw [if_pos hs] at k1 k2 ⊢
      have e1 : replaceAll m "http://".toList [] = m :=
        replaceFrom_of_not_contains _ _ (contains_http_after_https hs k1)
      rw [e1]
      show replaceFrom _ _ 0 m = _
      rw [replaceFrom_of_isPrefixOf (by decide) hs]
      exact replaceFrom_of_not_contains _ _ k2
    · rw [if_neg hs] at k1 k2 ⊢
      have e1 : replaceAll m "http://".toList [] = m := replaceFrom_of_not_contains _ _ k1
      rw [e1]
      exact replaceFrom_of_not_contains _ _ k2
  by_cases hp : "http://".toList.isPrefixOf l = true
  · have e : trimPrefix l "http://".toList = l.drop 7 := by
      unfold trimPrefix; rw [if_pos hp]; rfl
    rw [e] at h1 h2 ⊢
    have e2 : replaceAll l "http://".toList [] = replaceAll (l.drop 7) "http://".toList [] := by
      show replaceFrom _ _ 0 l = _
      rw [replaceFrom_of_isPrefixOf (by decide) hp]
      rfl
    rw [e2]
    exact key _ h1 h2
  · have e : trimPrefix l "http://".toList = l := by
      unfold trimPrefix; rw [if_neg hp]
    rw [e] at h1 h2 ⊢
    exact key _ h1 h2

/-- C1, as the claim states it, fails: on `a/http://b` the code removes the
inner `http://` and returns `a_b`, where stripping only a leading scheme gives
`a_http:__b`. -/
theorem sanitizeFilename_inner_scheme_removed :
    sanitizeFilename "a/http://b" = "a_b" ∧ sanitizeSpec "a/http://b" = "a_http:__b" ∧
      sanitizeFilename "a/http://b" ≠ sanitizeSpec "a/http://b" := by
  decide

/-- C1 (amended): for every URL string `u` in which no `http://` and no
`https://` occurs after the leading `http://` and the then leading `https://`
have been stripped, `sanitizeFilename u` is the result of stripping those
leading schemes and replacing every `/` with `_`; so
`sanitize("https://a.example/x/y") = "a.example_x_y"` and
`sanitize("http://h/") = "h_"`.  An occurrence of a scheme that is not at the
start of `u` is removed too: `sanitize("a/http://b") = "a_b"`. -/
theorem sanitizeFilename_eq_spec :
    (∀ u : String,
      contains (trimPrefix (trimPrefix u.toList "http://".toList) "https://".toList)
        "http://".toList = false →
      contains (trimPrefix (trimPrefix u.toList "http://".toList) "https://".toList)
        "https://".toList = false →
      sanitizeFilename u = sanitizeSpec u) ∧
    sanitizeFilename "https://a.example/x/y" = "a.example_x_y" ∧
    sanitizeFilename "http://h/" = "h_" ∧
    sanitizeFilename "a/http://b" = "a_b" :=
  ⟨sanitize_agrees, by decide, by decide, by decide⟩

/-- C1 (amended), at `https://a.example/x/y`. -/
theorem sanitizeFilename_eq_spec_witness :
    contains (trimPrefix (trimPrefix "https://a.example/x/y".toList "http://".toList)
        "https://".toList) "http://".toList = false ∧
    contains (trimPrefix (trimPrefix "https://a.example/x/y".toList "http://".toList)
        "https://".toList) "https://".toList = false ∧
    sanitizeFilename "https://a.example/x/y" = sanitizeSpec "https://a.example/x/y" :=
  ⟨by decide, by decide,
    sanitizeFilename_eq_spec.1 "https://a.example/x/y" (by decide) (by decide)⟩

/-- C9, as the claim states it, fails: `sanitizeFilename "ftp://x"` is not
`ftp://x`. -/
theorem sanitizeFilename_ftp_changed : sanitizeFilename "ftp://x" ≠ "ftp://x" := by
  decide

/-- C9 (amended): `sanitizeFilename "ftp://x"` returns `ftp:__x`: nothing is
stripped (the result is as long as the input), and the two `/` are replaced
by `_`. -/
theorem sanitizeFilename_ftp :
    sanitizeFilename "ftp://x" = "ftp:__x" ∧
      (sanitizeFilename "ftp://x").length = "ftp://x".length := by
  decide

theorem index_eq_none {sep : Char} : ∀ {s : List Char}, sep ∉ s → index sep s = none
  | [], _ => rfl
  | c :: cs, h => by
    have h1 : c ≠ sep := fun e => h (e ▸ List.mem_cons_self _ _)
    have h2 : sep ∉ cs := fun hm => h (List.mem_cons_of_mem _ hm)
    simp [index, h1, index_eq_none h2]

theorem index_of_mem {sep : Char} : ∀ {s : List Char}, sep ∈ s →
    ∃ m, index sep s = some m ∧ s.take m = s.takeWhile (· ≠ sep) ∧
      s.drop (m + 1) = (s.dropWhile (· ≠ sep)).drop 1
  | [], h => by simp at h
  | c :: cs, h => by
    by_cases hc : c = sep
    · exact ⟨0, by simp [index, hc], by simp [hc], by simp [hc]⟩
    · have hm : sep ∈ cs := by
        rcases List.mem_cons.1 h with e | e
        · exact absurd e.symm hc
        · exact e
      obtain ⟨m, e1, e2, e3⟩ := index_of_mem hm
      exact ⟨m + 1, by simp [index, hc, e1], by simp [hc, e2], by simp [hc, e3]⟩

theorem splitN_two_of_not_mem {seg : List Char} (h : ':' ∉ seg) :
    splitN ':' 2 seg = [seg] := by
  simp [splitN, index_eq_none h]

theorem splitN_two_of_mem {seg : List Char} (h : ':' ∈ seg) :
    splitN ':' 2 seg = [seg.takeWhile (· ≠ ':'), (seg.dropWhile (· ≠ ':')).drop 1] := by
  obtain ⟨m, e1, e2, e3⟩ := index_of_mem h
  simp [splitN, e1, e2, e3]

/-- C7: for every header string `s`, `parseHeaders s` is the map built by
splitting `s` on `,` and, segment by segment, skipping a segment without `:`
and otherwise assigning to the trimmed text before its first `:` the trimmed
text after it (a later assignment to a key replaces the earlier one); and the
empty string gives the empty map. -/
theorem parseHeaders_eq_spec (s : String) :
    parseHeaders s = parseHeadersSpec s ∧ parseHeaders "" = [] := by
  refine ⟨?_, by decide⟩
  unfold parseHeaders parseHeadersSpec
  by_cases hs : s = ""
  · subst hs; decide
  · rw [if_neg hs]
    congr 1
    funext m seg
    by_cases h : ':' ∈ seg
    · simp [splitN_two_of_mem h, h]
    · simp [splitN_two_of_not_mem h, h]

/-! ## Lemmas on `fetchURL` -/

@[simp] theorem log_calls (t : FetchTrace) (config : FetchConfig) (l : OutLine) :
    (t.log config l).calls = t.calls := by
  unfold FetchTrace.log; split <;> rfl

@[simp] theorem log_writes (t : FetchTrace) (config : FetchConfig) (l : OutLine) :
    (t.log config l).writes = t.writes := by
  unfold FetchTrace.log; split <;> rfl

theorem fetchLoop_succeeds (url : String) (config : FetchConfig) (env : FetchEnv)
    (R n : Nat) (body : Bytes) (hR : config.retries = (R : Int))
    (herr : ∀ k, k < n → env.doResult k = .transportErr)
    (hok : env.doResult n = .response 200 (some body))
    (hw : env.writeErr (env.join config.directory (sanitizeFilename url)) body = false)
    (hn : n ≤ R) :
    ∀ (d j : Nat) (t : FetchTrace), t.calls = j → j + d = n →
      (fetchLoop url config env (R + 1 - j) (j : Int) t).1 = true := by
  intro d
  induction d with
  | zero =>
    intro j t ht hj
    have hj' : j = n := by omega
    subst hj'
    obtain ⟨f, hf⟩ : ∃ f, R + 1 - j = f + 1 := ⟨R - j, by omega⟩
    rw [hf, fetchLoop, if_pos (by rw [hR]; exact_mod_cast hn), ht, hok]
    simp only [ne_eq, not_true_eq_false, if_false, hw]
    cases config.silent <;> simp
  | succ d ih =>
    intro j t ht hj
    obtain ⟨f, hf⟩ : ∃ f, R + 1 - j = f + 1 := ⟨R - j, by omega⟩
    have hne : ¬ ((j : Int) = config.retries) := by rw [hR]; omega
    rw [hf, fetchLoop, if_pos (by rw [hR]; omega), ht, herr j (by omega)]
    simp only [if_neg hne]
    have hf2 : f = R + 1 - (j + 1) := by omega
    rw [hf2]
    exact ih (j + 1) _ (by simp [ht]) (by omega)

theorem fetchLoop_gives_up (url : String) (config : FetchConfig) (env : FetchEnv)
    (R n : Nat) (hR : config.retries = (R : Int))
    (herr : ∀ k, k < n → env.doResult k = .transportErr) (hn : R < n) :
    ∀ (d j : Nat) (t : FetchTrace), t.calls = j → j + d = R →
      (fetchLoop url config env (R + 1 - j) (j : Int) t).1 = false := by
  intro d
  induction d with
  | zero =>
    intro j t ht hj
    have hj' : j = R := by omega
    subst hj'
    obtain ⟨f, hf⟩ : ∃ f, j + 1 - j = f + 1 := ⟨0, by omega⟩
    rw [hf, fetchLoop, if_pos (by rw [hR]), ht, herr j hn]
    simp [hR]
  | succ d ih =>
    intro j t ht hj
    obtain ⟨f, hf⟩ : ∃ f, R + 1 - j = f + 1 := ⟨R - j, by omega⟩
    have hne : ¬ ((j : Int) = config.retries) := by rw [hR]; omega
    rw [hf, fetchLoop, if_pos (by rw [hR]; omega), ht, herr j (by omega)]
    simp only [if_neg hne]
    have hf2 : f = R + 1 - (j + 1) := by omega
    rw [hf2]
    exact ih (j + 1) _ (by simp [ht]) (by omega)

/-- C2: for `retries ≥ 0` and every `n`, when request construction succeeds,
the client returns a transport error on each of the first `n` attempts and a
200 OK on the next one, whose body is read and written without error,
`fetchURL` returns true if and only if `n ≤ retries`. -/
theorem fetchURL_retry_count (url : String) (config : FetchConfig) (env : FetchEnv)
    (n : Nat) (body : Bytes) (hr : 0 ≤ config.retries)
    (hreq : env.newRequestErr = false)
    (herr : ∀ k, k < n → env.doResult k = .transportErr)
    (hok : env.doResult n = .response 200 (some body))
    (hw : env.writeErr (env.join config.directory (sanitizeFilename url)) body = false) :
    (fetchURL url config env).1 = true ↔ (n : Int) ≤ config.retries := by
  obtain ⟨R, hR⟩ : ∃ R : Nat, config.retries = (R : Int) := ⟨config.retries.toNat, by omega⟩
  have hfuel : (config.retries + 1).toNat = R + 1 - 0 := by rw [hR]; omega
  unfold fetchURL
  simp only [hreq, Bool.false_eq_true, if_false, hfuel]
  by_cases hn : n ≤ R
  · have h := fetchLoop_succeeds url config env R n body hR herr hok hw hn n 0 ⟨0, [], []⟩ rfl
      (by omega)
    simp only [Nat.cast_zero] at h
    rw [h, hR]
    simp [hn]
  · have h := fetchLoop_gives_up url config env R n hR herr (by omega) R 0 ⟨0, [], []⟩ rfl
      (by omega)
    simp only [Nat.cast_zero] at h
    rw [h, hR]
    simp; omega

/-- C3: for `retries ≥ 0` and every status `s ≠ 200`, when the first attempt
of the client returns a response with status `s`, `fetchURL` makes exactly one
client call, writes no file and returns false. -/
theorem fetchURL_no_retry_on_non_200 (url : String) (config : FetchConfig) (env : FetchEnv)
    (s : Int) (body : Option Bytes) (hr : 0 ≤ config.retries)
    (hreq : env.newRequestErr = false)
    (hresp : env.doResult 0 = .response s body) (hs : s ≠ 200) :
    (fetchURL url config env).1 = false ∧ (fetchURL url config env).2.calls = 1 ∧
      (fetchURL url config env).2.writes = [] := by
  obtain ⟨f, hf⟩ : ∃ f, (config.retries + 1).toNat = f + 1 :=
    ⟨config.retries.toNat, by omega⟩
  unfold fetchURL
  simp only [hreq, Bool.false_eq_true, if_false, hf, fetchLoop, if_pos hr, hresp]
  simp [hs]

theorem fetchLoop_writes (url : String) (config : FetchConfig) (env : FetchEnv) :
    ∀ (fuel : Nat) (i : Int) (t : FetchTrace), t.writes = [] →
      ((fetchLoop url config env fuel i t).1 = true →
        ∃ k body, env.doResult k = .response 200 (some body) ∧
          (fetchLoop url config env fuel i t).2.writes =
            [⟨env.join config.directory (sanitizeFilename url), body, 0o644, true⟩]) ∧
      ((fetchLoop url config env fuel i t).1 = false →
        ∀ w ∈ (fetchLoop url config env fuel i t).2.writes, w.ok = false) := by
  intro fuel
  induction fuel with
  | zero => intro i t ht; simp [fetchLoop, ht]
  | succ fuel ih =>
    intro i t ht
    rw [fetchLoop]
    split
    · split
      · split
        · simp [ht]
        · exact ih _ _ ht
      · rename_i status body hres
        split
        · simp [ht]
        · rename_i h200
          have h200' : status = 200 := by simpa using h200
          subst h200'
          split
          · split
            · simp [ht]
            · exact ih _ _ ht
          · rename_i b
            cases hwe : env.writeErr (env.join config.directory (sanitizeFilename url)) b
            · cases config.silent
              · simp [ht, hwe]; exact ⟨_, hres⟩
              · simp [ht, hwe]; exact ⟨_, hres⟩
            · simp [ht, hwe]
    · simp [ht]

/-- C4: if `fetchURL` returns true, exactly one file write was made during the
call, to `Join(config.directory, sanitizeFilename(url))` with mode 0644, it
succeeded, and its content is the complete body of a response with status
200; if `fetchURL` returns false, no file write of the call succeeded. -/
theorem fetchURL_file_effect (url : String) (config : FetchConfig) (env : FetchEnv) :
    ((fetchURL url config env).1 = true →
      ∃ k body, env.doResult k = .response 200 (some body) ∧
        (fetchURL url config env).2.writes =
          [⟨env.join config.directory (sanitizeFilename url), body, 0o644, true⟩]) ∧
    ((fetchURL url config env).1 = false →
      ∀ w ∈ (fetchURL url config env).2.writes, w.ok = false) := by
  unfold fetchURL
  cases env.newRequestErr
  · exact fetchLoop_writes url config env _ _ _ rfl
  · simp

set_option linter.unusedTactic false
set_option linter.unreachableTactic false

/-! ## The dispatcher invariant -/

theorem countP_set (p : Worker → Bool) :
    ∀ (ws : List Worker) (i : Nat) (w w' : Worker), ws[i]? = some w →
      (ws.set i w').countP p + (if p w = true then 1 else 0) =
        ws.countP p + (if p w' = true then 1 else 0)
  | [], i, w, w', h => by simp at h
  | x :: xs, 0, w, w', h => by
    simp only [List.getElem?_cons_zero, Option.some.injEq] at h
    subst h
    simp only [List.set_cons_zero, List.countP_cons]
    omega
  | x :: xs, i + 1, w, w', h => by
    simp only [List.getElem?_cons_succ] at h
    have ih := countP_set p xs i w w' h
    simp only [List.set_cons_succ, List.countP_cons]
    omega

theorem mem_of_getElem? {ws : List Worker} {i : Nat} {w : Worker} (h : ws[i]? = some w) :
    w ∈ ws := by
  obtain ⟨hi, e⟩ := List.getElem?_eq_some.1 h
  exact e ▸ List.getElem_mem hi

theorem forall_mem_set {P : Worker → Prop} {ws : List Worker} {i : Nat} {w' : Worker}
    (h : ∀ x ∈ ws, P x) (hw : P w') : ∀ x ∈ ws.set i w', P x := by
  intro x hx
  rcases List.mem_or_eq_of_mem_set hx with h1 | h1
  · exact h x h1
  · exact h1 ▸ hw

theorem map_url_set (w' : Worker) {ws : List Worker} {i : Nat} {w : Worker} (h : ws[i]? = some w)
    (hu : w'.url = w.url) : (ws.set i w').map (·.url) = ws.map (·.url) := by
  induction ws generalizing i with
  | nil => simp
  | cons x xs ih =>
    cases i with
    | zero =>
      simp only [List.getElem?_cons_zero, Option.some.injEq] at h
      subst h
      simp [hu]
    | succ i =>
      simp only [List.getElem?_cons_succ] at h
      simp [ih h]

theorem countP_pos_of_mem {p : Worker → Bool} {ws : List Worker} {w : Worker} (h : w ∈ ws)
    (hp : p w = true) : 0 < ws.countP p :=
  List.countP_pos_iff.2 ⟨w, h, hp⟩

theorem countP_atStore_le (ws : List Worker) : ws.countP atStore ≤ ws.countP inCS := by
  induction ws with
  | nil => simp
  | cons x xs ih =>
    simp only [List.countP_cons]
    have : atStore x = true → inCS x = true := by
      unfold atStore inCS; cases x.pc <;> simp
    by_cases h1 : atStore x = true
    · simp [h1, this h1, ih]
    · by_cases h2 : inCS x = true
      · simp [h1, h2]; omega
      · simp [h1, h2, ih]

theorem inv_init {r : Run} {s : DState} (h : init r = some s) : Inv r s := by
  unfold init at h
  split at h
  · simp at h
  · simp only [Option.some.injEq] at h
    subst h
    constructor <;> simp [slotMain, wgMain, current, pastLoop, pastWait]

theorem exited_of_countP_live {ws : List Worker} (h : ws.countP live = 0) :
    ∀ w ∈ ws, w.pc = .exited := by
  intro w hw
  have h1 := List.countP_eq_zero.1 h w hw
  unfold live at h1
  cases hp : w.pc <;> simp [hp] at h1 ⊢

theorem countP_counted_of_exited (r : Run) :
    ∀ (ws : List Worker), (∀ w ∈ ws, w.pc = .exited) →
      (∀ w ∈ ws, w.pc ≠ .fetch → w.success = (fetchURL w.url r.config (r.world w.url)).1) →
      ws.countP counted =
        (ws.map (·.url)).countP (fun u => (fetchURL u r.config (r.world u)).1)
  | [], _, _ => rfl
  | x :: xs, he, hr => by
    have ih := countP_counted_of_exited r xs
      (fun w hw => he w (List.mem_cons_of_mem _ hw))
      (fun w hw => hr w (List.mem_cons_of_mem _ hw))
    have hx := he x (List.mem_cons_self _ _)
    have hrx := hr x (List.mem_cons_self _ _) (by rw [hx]; simp)
    have hc : counted x = (fetchURL x.url r.config (r.world x.url)).1 := by
      unfold counted; rw [hx, ← hrx]; simp
    simp only [List.countP_cons, List.map_cons, ih, hc]

theorem successCount_final {r : Run} {s : DState} (hi : Inv r s) (hp : pastWait s.pc = true) :
    s.successCount = expected r := by
  have hpl : pastLoop s.pc = true := by
    revert hp; unfold pastWait pastLoop; cases s.pc <;> simp
  have hcur : current s.pc = [] := by
    revert hp; unfold pastWait current; cases s.pc <;> simp
  have hu := hi.urls_eq
  rw [hi.past_loop hpl, hcur] at hu
  simp only [List.append_nil] at hu
  rw [hi.count_eq, countP_counted_of_exited r s.workers (hi.finished hp) hi.result, hu]
  rfl

theorem inv_stepMain {r : Run} {s s' : DState} (hi : Inv r s) (h : stepMain r s = some s') :
    Inv r s' := by
  obtain ⟨h1, h2, h3, h4, h5, h6, h7, h8, h9, h10, h11, h12, h13⟩ := hi
  rcases s with ⟨pc, pending, ws, sem, wg, mu, sc, out, files⟩
  dsimp only at h1 h2 h3 h4 h5 h6 h7 h8 h9 h10 h11 h12 h13
  unfold stepMain at h
  dsimp only at h
  cases pc with
  | loopHead =>
    dsimp only at h
    cases pending with
    | nil =>
      dsimp only at h
      simp only [Option.some.injEq] at h
      subst h
      constructor <;> simp only [slotMain, wgMain, current, pastLoop, pastWait, List.append_nil,
        List.nil_append, List.append_assoc, List.cons_append, Bool.false_eq_true, false_implies,
        implies_true, true_implies, reduceCtorEq] at * <;> first | assumption | omega | skip
    | cons u rest =>
      dsimp only at h
      simp only [Option.some.injEq] at h
      subst h
      constructor <;> simp only [slotMain, wgMain, current, pastLoop, pastWait, List.append_nil,
        List.nil_append, List.append_assoc, List.cons_append, Bool.false_eq_true, false_implies,
        implies_true, true_implies, reduceCtorEq] at * <;> first | assumption | omega | skip
  | send u =>
    dsimp only at h
    split at h
    · simp only [Option.some.injEq] at h
      subst h
      constructor <;> simp only [slotMain, wgMain, current, pastLoop, pastWait, List.append_nil,
        List.nil_append, List.append_assoc, List.cons_append, Bool.false_eq_true, false_implies,
        implies_true, true_implies, reduceCtorEq] at * <;> first | assumption | omega | skip
    · simp at h
  | spawn u =>
    dsimp only at h
    simp only [Option.some.injEq] at h
    subst h
    constructor <;> simp only [slotMain, wgMain, current, pastLoop, pastWait, List.append_nil,
        List.nil_append, List.append_assoc, List.cons_append, Bool.false_eq_true, false_implies,
        implies_true, true_implies, reduceCtorEq] at * <;> first | assumption | omega | skip
    case sem_eq => simp [List.countP_append, holdsSlot]; omega
    case wg_eq => simp [List.countP_append, live]; omega
    case mu_eq => simpa [List.countP_append, inCS] using h4
    case store_val =>
      intro w hw
      rcases List.mem_append.1 hw with hw | hw
      · exact h5 w hw
      · simp at hw; subst hw; simp
    case locked_ok =>
      intro w hw
      rcases List.mem_append.1 hw with hw | hw
      · exact h6 w hw
      · simp at hw; subst hw; simp [inLocked]
    case count_eq => simpa [List.countP_append, counted] using h7
    case result =>
      intro w hw
      rcases List.mem_append.1 hw with hw | hw
      · exact h8 w hw
      · simp at hw; subst hw; simp
    case urls_eq => simpa using h9
  | banner1 =>
    dsimp only at h
    simp only [Option.some.injEq] at h
    subst h
    constructor <;> simp only [slotMain, wgMain, current, pastLoop, pastWait, List.append_nil,
        List.nil_append, List.append_assoc, List.cons_append, Bool.false_eq_true, false_implies,
        implies_true, true_implies, reduceCtorEq] at * <;> first | assumption | omega | skip
    case summary_out =>
      intro k n hm
      rcases List.mem_append.1 hm with hm | hm
      · exact h12 k n hm
      · simp at hm
  | banner2 =>
    dsimp only at h
    simp only [Option.some.injEq] at h
    subst h
    constructor <;> simp only [slotMain, wgMain, current, pastLoop, pastWait, List.append_nil,
        List.nil_append, List.append_assoc, List.cons_append, Bool.false_eq_true, false_implies,
        implies_true, true_implies, reduceCtorEq] at * <;> first | assumption | omega | skip
    case summary_out =>
      intro k n hm
      rcases List.mem_append.1 hm with hm | hm
      · exact h12 k n hm
      · simp at hm
  | banner3 =>
    dsimp only at h
    simp only [Option.some.injEq] at h
    subst h
    constructor <;> simp only [slotMain, wgMain, current, pastLoop, pastWait, List.append_nil,
        List.nil_append, List.append_assoc, List.cons_append, Bool.false_eq_true, false_implies,
        implies_true, true_implies, reduceCtorEq] at * <;> first | assumption | omega | skip
    case summary_out =>
      intro k n hm
      rcases List.mem_append.1 hm with hm | hm
      · exact h12 k n hm
      · simp at hm
  | wait =>
    dsimp only at h
    split at h
    · simp only [Option.some.injEq] at h
      subst h
      constructor <;> simp only [slotMain, wgMain, current, pastLoop, pastWait, List.append_nil,
        List.nil_append, List.append_assoc, List.cons_append, Bool.false_eq_true, false_implies,
        implies_true, true_implies, reduceCtorEq] at * <;> first | assumption | omega | skip
      case finished => exact exited_of_countP_live (by omega)
    · simp at h
  | summary =>
    have hsc : sc = expected r :=
      successCount_final (s := ⟨.summary, pending, ws, sem, wg, mu, sc, out, files⟩)
        ⟨h1, h2, h3, h4, h5, h6, h7, h8, h9, h10, h11, h12, h13⟩ rfl
    dsimp only at h
    split at h
    · simp only [Option.some.injEq] at h
      subst h
      constructor <;> simp only [slotMain, wgMain, current, pastLoop, pastWait, List.append_nil,
        List.nil_append, List.append_assoc, List.cons_append, Bool.false_eq_true, false_implies,
        implies_true, true_implies, reduceCtorEq] at * <;> first | assumption | omega | skip
      case summary_out =>
        intro k n hm
        rcases List.mem_append.1 hm with hm | hm
        · exact h12 k n hm
        · simp at hm
          exact ⟨hm.1.trans hsc, hm.2⟩
      case done_out => exact fun _ => ⟨_, _, List.mem_append_right _ (List.mem_singleton_self _)⟩
    · simp only [Option.some.injEq] at h
      subst h
      constructor <;> simp only [slotMain, wgMain, current, pastLoop, pastWait, List.append_nil,
        List.nil_append, List.append_assoc, List.cons_append, Bool.false_eq_true, false_implies,
        implies_true, true_implies, reduceCtorEq] at * <;> first | assumption | omega | skip
      case done_out =>
        rename_i hs
        intro hf
        rw [hf] at hs
        exact absurd rfl hs
  | done => simp at h

theorem log_out_mem {t : FetchTrace} {config : FetchConfig} {l x : OutLine}
    (h : x ∈ (t.log config l).out) : x ∈ t.out ∨ x = l := by
  unfold FetchTrace.log at h
  split at h
  · exact Or.inl h
  · simpa using h

theorem fetchLoop_out_no_summary (url : String) (config : FetchConfig) (env : FetchEnv) :
    ∀ (fuel : Nat) (i : Int) (t : FetchTrace), (∀ k n, OutLine.summary k n ∉ t.out) →
      ∀ k n, OutLine.summary k n ∉ (fetchLoop url config env fuel i t).2.out := by
  intro fuel
  induction fuel with
  | zero => intro i t ht; simpa [fetchLoop] using ht
  | succ fuel ih =>
    intro i t ht k n
    have hlog : ∀ (t1 : FetchTrace) (l : OutLine), t1.out = t.out → (∀ a b, l ≠ .summary a b) →
        OutLine.summary k n ∉ (t1.log config l).out := by
      intro t1 l e hl hm
      rcases log_out_mem hm with h1 | h1
      · exact ht k n (e ▸ h1)
      · exact hl k n h1.symm
    rw [fetchLoop]
    split
    · split
      · split
        · exact hlog _ _ rfl (by simp)
        · exact ih (i + 1) { t with calls := t.calls + 1 } ht k n
      · split
        · exact hlog _ _ rfl (by simp)
        · split
          · split
            · exact hlog _ _ rfl (by simp)
            · exact ih (i + 1) { t with calls := t.calls + 1 } ht k n
          · dsimp only
            split
            · exact hlog _ _ rfl (by simp)
            · split <;> simpa using ht k n
    · exact ht k n

theorem fetchURL_out_no_summary (url : String) (config : FetchConfig) (env : FetchEnv)
    (k n : Nat) : OutLine.summary k n ∉ (fetchURL url config env).2.out := by
  unfold fetchURL
  split
  · intro hm
    rcases log_out_mem hm with h1 | h1
    · simp at h1
    · simp at h1
  · exact fetchLoop_out_no_summary url config env _ _ _ (by simp) k n

theorem inv_stepWorker {r : Run} {s s' : DState} {i : Nat} {w : Worker} (hi : Inv r s)
    (hw : s.workers[i]? = some w) (h : stepWorker r s i w = some s') : Inv r s' := by
  obtain ⟨h1, h2, h3, h4, h5, h6, h7, h8, h9, h10, h11, h12, h13⟩ := hi
  rcases s with ⟨pc, pending, ws, sem, wg, mu, sc, out, files⟩
  rcases w with ⟨url, ok, wpc⟩
  dsimp only at h1 h2 h3 h4 h5 h6 h7 h8 h9 h10 h11 h12 h13 hw
  have hm := mem_of_getElem? hw
  have hle := countP_atStore_le ws
  unfold stepWorker at h
  dsimp only at h
  cases wpc with
  | fetch =>
    dsimp only at h
    simp only [Option.some.injEq] at h
    subst h
    have c1 := countP_set holdsSlot ws i _ ⟨url, (fetchURL url r.config (r.world url)).1, .check⟩ hw
    have c2 := countP_set live ws i _ ⟨url, (fetchURL url r.config (r.world url)).1, .check⟩ hw
    have c3 := countP_set inCS ws i _ ⟨url, (fetchURL url r.config (r.world url)).1, .check⟩ hw
    have c4 := countP_set counted ws i _ ⟨url, (fetchURL url r.config (r.world url)).1, .check⟩ hw
    have c5 := countP_set atStore ws i _ ⟨url, (fetchURL url r.config (r.world url)).1, .check⟩ hw
    simp only [holdsSlot, live, inCS, counted, atStore, if_true, Bool.false_eq_true, if_false,
      Bool.and_false, Bool.and_true, Nat.add_zero] at c1 c2 c3 c4 c5
    constructor
    all_goals (try dsimp only)
    case sem_eq =>
      omega
    case sem_le =>
      omega
    case wg_eq =>
      omega
    case mu_eq =>
      cases mu <;> simp only [↓reduceIte, Bool.false_eq_true] at h4 ⊢ <;> omega
    case store_val =>
      exact forall_mem_set h5 (by simp)
    case locked_ok =>
      exact forall_mem_set h6 (by simp [inLocked])
    case count_eq =>
      omega
    case result =>
      exact forall_mem_set h8 (by simp)
    case urls_eq =>
      rw [map_url_set ⟨url, (fetchURL url r.config (r.world url)).1, .check⟩ hw rfl]; exact h9
    case past_loop =>
      exact h10
    case finished =>
      intro hp; have e := h11 hp _ hm; simp at e
    case summary_out =>
      intro k n hx
      rcases List.mem_append.1 hx with hx | hx
      · exact h12 k n hx
      · exact absurd hx (fetchURL_out_no_summary _ _ _ k n)
    case done_out =>
      intro hp; have e := h11 (by rw [hp]; rfl) _ hm; simp at e
  | check =>
    dsimp only at h
    split at h
    · rename_i hok
      simp only [Option.some.injEq] at h
      subst h
      have hok1 : ok = true := by simpa using hok
      subst hok1
      have c1 := countP_set holdsSlot ws i _ ⟨url, true, .lock⟩ hw
      have c2 := countP_set live ws i _ ⟨url, true, .lock⟩ hw
      have c3 := countP_set inCS ws i _ ⟨url, true, .lock⟩ hw
      have c4 := countP_set counted ws i _ ⟨url, true, .lock⟩ hw
      have c5 := countP_set atStore ws i _ ⟨url, true, .lock⟩ hw
      simp only [holdsSlot, live, inCS, counted, atStore, if_true, Bool.false_eq_true, if_false,
        Bool.and_false, Bool.and_true, Nat.add_zero] at c1 c2 c3 c4 c5
      constructor
      all_goals (try dsimp only)
      case sem_eq =>
        omega
      case sem_le =>
        omega
      case wg_eq =>
        omega
      case mu_eq =>
        cases mu <;> simp only [↓reduceIte, Bool.false_eq_true] at h4 ⊢ <;> omega
      case store_val =>
        exact forall_mem_set h5 (by simp)
      case locked_ok =>
        exact forall_mem_set h6 (fun _ => rfl)
      case count_eq =>
        omega
      case result =>
        exact forall_mem_set h8 (by simpa using h8 _ hm)
      case urls_eq =>
        rw [map_url_set ⟨url, true, .lock⟩ hw rfl]; exact h9
      case past_loop =>
        exact h10
      case finished =>
        intro hp; have e := h11 hp _ hm; simp at e
      case summary_out =>
        exact h12
      case done_out =>
        intro hp; have e := h11 (by rw [hp]; rfl) _ hm; simp at e

    · rename_i hok
      simp only [Option.some.injEq] at h
      subst h
      have hok1 : ok = false := by simpa using hok
      subst hok1
      have c1 := countP_set holdsSlot ws i _ ⟨url, false, .release⟩ hw
      have c2 := countP_set live ws i _ ⟨url, false, .release⟩ hw
      have c3 := countP_set inCS ws i _ ⟨url, false, .release⟩ hw
      have c4 := countP_set counted ws i _ ⟨url, false, .release⟩ hw
      have c5 := countP_set atStore ws i _ ⟨url, false, .release⟩ hw
      simp only [holdsSlot, live, inCS, counted, atStore, if_true, Bool.false_eq_true, if_false,
        Bool.and_false, Bool.and_true, Nat.add_zero] at c1 c2 c3 c4 c5
      constructor
      all_goals (try dsimp only)
      case sem_eq =>
        omega
      case sem_le =>
        omega
      case wg_eq =>
        omega
      case mu_eq =>
        cases mu <;> simp only [↓reduceIte, Bool.false_eq_true] at h4 ⊢ <;> omega
      case store_val =>
        exact forall_mem_set h5 (by simp)
      case locked_ok =>
        exact forall_mem_set h6 (by simp [inLocked])
      case count_eq =>
        omega
      case result =>
        exact forall_mem_set h8 (by simpa using h8 _ hm)
      case urls_eq =>
        rw [map_url_set ⟨url, false, .release⟩ hw rfl]; exact h9
      case past_loop =>
        exact h10
      case finished =>
        intro hp; have e := h11 hp _ hm; simp at e
      case summary_out =>
        exact h12
      case done_out =>
        intro hp; have e := h11 (by rw [hp]; rfl) _ hm; simp at e

  | lock =>
    dsimp only at h
    split at h
    · simp at h
    · rename_i hmu
      simp only [Option.some.injEq] at h
      subst h
      have hmu1 : mu = false := by simpa using hmu
      subst hmu1
      have c1 := countP_set holdsSlot ws i _ ⟨url, ok, .load⟩ hw
      have c2 := countP_set live ws i _ ⟨url, ok, .load⟩ hw
      have c3 := countP_set inCS ws i _ ⟨url, ok, .load⟩ hw
      have c4 := countP_set counted ws i _ ⟨url, ok, .load⟩ hw
      have c5 := countP_set atStore ws i _ ⟨url, ok, .load⟩ hw
      simp only [holdsSlot, live, inCS, counted, atStore, if_true, Bool.false_eq_true, if_false,
        Bool.and_false, Bool.and_true, Nat.add_zero] at c1 c2 c3 c4 c5
      constructor
      all_goals (try dsimp only)
      case sem_eq =>
        omega
      case sem_le =>
        omega
      case wg_eq =>
        omega
      case mu_eq =>
        simp only [↓reduceIte, Bool.false_eq_true] at h4 ⊢
        omega
      case store_val =>
        exact forall_mem_set h5 (by simp)
      case locked_ok =>
        exact forall_mem_set h6 (by simpa [inLocked] using h6 _ hm)
      case count_eq =>
        omega
      case result =>
        exact forall_mem_set h8 (by simpa using h8 _ hm)
      case urls_eq =>
        rw [map_url_set ⟨url, ok, .load⟩ hw rfl]; exact h9
      case past_loop =>
        exact h10
      case finished =>
        intro hp; have e := h11 hp _ hm; simp at e
      case summary_out =>
        exact h12
      case done_out =>
        intro hp; have e := h11 (by rw [hp]; rfl) _ hm; simp at e

  | load =>
    dsimp only at h
    simp only [Option.some.injEq] at h
    subst h
    have c1 := countP_set holdsSlot ws i _ ⟨url, ok, .store sc⟩ hw
    have c2 := countP_set live ws i _ ⟨url, ok, .store sc⟩ hw
    have c3 := countP_set inCS ws i _ ⟨url, ok, .store sc⟩ hw
    have c4 := countP_set counted ws i _ ⟨url, ok, .store sc⟩ hw
    have c5 := countP_set atStore ws i _ ⟨url, ok, .store sc⟩ hw
    simp only [holdsSlot, live, inCS, counted, atStore, if_true, Bool.false_eq_true, if_false,
      Bool.and_false, Bool.and_true, Nat.add_zero] at c1 c2 c3 c4 c5
    constructor
    all_goals (try dsimp only)
    case sem_eq =>
      omega
    case sem_le =>
      omega
    case wg_eq =>
      omega
    case mu_eq =>
      cases mu <;> simp only [↓reduceIte, Bool.false_eq_true] at h4 ⊢ <;> omega
    case store_val =>
      exact forall_mem_set h5 (by simp)
    case locked_ok =>
      exact forall_mem_set h6 (by simpa [inLocked] using h6 _ hm)
    case count_eq =>
      omega
    case result =>
      exact forall_mem_set h8 (by simpa using h8 _ hm)
    case urls_eq =>
      rw [map_url_set ⟨url, ok, .store sc⟩ hw rfl]; exact h9
    case past_loop =>
      exact h10
    case finished =>
      intro hp; have e := h11 hp _ hm; simp at e
    case summary_out =>
      exact h12
    case done_out =>
      intro hp; have e := h11 (by rw [hp]; rfl) _ hm; simp at e
  | store v =>
    dsimp only at h
    simp only [Option.some.injEq] at h
    subst h
    have hv : v = sc := h5 _ hm v rfl
    have hok : ok = true := h6 _ hm (by simp [inLocked])
    subst hv hok
    have c1 := countP_set holdsSlot ws i _ ⟨url, true, .unlock⟩ hw
    have c2 := countP_set live ws i _ ⟨url, true, .unlock⟩ hw
    have c3 := countP_set inCS ws i _ ⟨url, true, .unlock⟩ hw
    have c4 := countP_set counted ws i _ ⟨url, true, .unlock⟩ hw
    have c5 := countP_set atStore ws i _ ⟨url, true, .unlock⟩ hw
    simp only [holdsSlot, live, inCS, counted, atStore, if_true, Bool.false_eq_true, if_false,
      Bool.and_false, Bool.and_true, Nat.add_zero] at c1 c2 c3 c4 c5
    constructor
    all_goals (try dsimp only)
    case sem_eq =>
      omega
    case sem_le =>
      omega
    case wg_eq =>
      omega
    case mu_eq =>
      cases mu <;> simp only [↓reduceIte, Bool.false_eq_true] at h4 ⊢ <;> omega
    case store_val =>
      have hz : (ws.set i ⟨url, true, .unlock⟩).countP atStore = 0 := by
        cases mu <;> simp only [↓reduceIte, Bool.false_eq_true] at h4 <;> omega
      intro x hx v hxv
      have := List.countP_eq_zero.1 hz x hx
      simp [atStore, hxv] at this
    case locked_ok =>
      exact forall_mem_set h6 (fun _ => rfl)
    case count_eq =>
      omega
    case result =>
      exact forall_mem_set h8 (by simpa using h8 _ hm)
    case urls_eq =>
      rw [map_url_set ⟨url, true, .unlock⟩ hw rfl]; exact h9
    case past_loop =>
      exact h10
    case finished =>
      intro hp; have e := h11 hp _ hm; simp at e
    case summary_out =>
      exact h12
    case done_out =>
      intro hp; have e := h11 (by rw [hp]; rfl) _ hm; simp at e
  | unlock =>
    dsimp only at h
    simp only [Option.some.injEq] at h
    subst h
    have c1 := countP_set holdsSlot ws i _ ⟨url, ok, .release⟩ hw
    have c2 := countP_set live ws i _ ⟨url, ok, .release⟩ hw
    have c3 := countP_set inCS ws i _ ⟨url, ok, .release⟩ hw
    have c4 := countP_set counted ws i _ ⟨url, ok, .release⟩ hw
    have c5 := countP_set atStore ws i _ ⟨url, ok, .release⟩ hw
    simp only [holdsSlot, live, inCS, counted, atStore, if_true, Bool.false_eq_true, if_false,
      Bool.and_false, Bool.and_true, Nat.add_zero] at c1 c2 c3 c4 c5
    constructor
    all_goals (try dsimp only)
    case sem_eq =>
      omega
    case sem_le =>
      omega
    case wg_eq =>
      omega
    case mu_eq =>
      cases mu <;> simp only [↓reduceIte, Bool.false_eq_true] at h4 ⊢ <;> omega
    case store_val =>
      exact forall_mem_set h5 (by simp)
    case locked_ok =>
      exact forall_mem_set h6 (by simp [inLocked])
    case count_eq =>
      omega
    case result =>
      exact forall_mem_set h8 (by simpa using h8 _ hm)
    case urls_eq =>
      rw [map_url_set ⟨url, ok, .release⟩ hw rfl]; exact h9
    case past_loop =>
      exact h10
    case finished =>
      intro hp; have e := h11 hp _ hm; simp at e
    case summary_out =>
      exact h12
    case done_out =>
      intro hp; have e := h11 (by rw [hp]; rfl) _ hm; simp at e
  | release =>
    dsimp only at h
    split at h
    · rename_i hpos
      simp only [Option.some.injEq] at h
      subst h
      have c1 := countP_set holdsSlot ws i _ ⟨url, ok, .wgDone⟩ hw
      have c2 := countP_set live ws i _ ⟨url, ok, .wgDone⟩ hw
      have c3 := countP_set inCS ws i _ ⟨url, ok, .wgDone⟩ hw
      have c4 := countP_set counted ws i _ ⟨url, ok, .wgDone⟩ hw
      have c5 := countP_set atStore ws i _ ⟨url, ok, .wgDone⟩ hw
      simp only [holdsSlot, live, inCS, counted, atStore, if_true, Bool.false_eq_true, if_false,
        Bool.and_false, Bool.and_true, Nat.add_zero] at c1 c2 c3 c4 c5
      constructor
      all_goals (try dsimp only)
      case sem_eq =>
        omega
      case sem_le =>
        omega
      case wg_eq =>
        omega
      case mu_eq =>
        cases mu <;> simp only [↓reduceIte, Bool.false_eq_true] at h4 ⊢ <;> omega
      case store_val =>
        exact forall_mem_set h5 (by simp)
      case locked_ok =>
        exact forall_mem_set h6 (by simp [inLocked])
      case count_eq =>
        omega
      case result =>
        exact forall_mem_set h8 (by simpa using h8 _ hm)
      case urls_eq =>
        rw [map_url_set ⟨url, ok, .wgDone⟩ hw rfl]; exact h9
      case past_loop =>
        exact h10
      case finished =>
        intro hp; have e := h11 hp _ hm; simp at e
      case summary_out =>
        exact h12
      case done_out =>
        intro hp; have e := h11 (by rw [hp]; rfl) _ hm; simp at e

    · simp at h
  | wgDone =>
    dsimp only at h
    split at h
    · rename_i hpos
      simp only [Option.some.injEq] at h
      subst h
      have c1 := countP_set holdsSlot ws i _ ⟨url, ok, .exited⟩ hw
      have c2 := countP_set live ws i _ ⟨url, ok, .exited⟩ hw
      have c3 := countP_set inCS ws i _ ⟨url, ok, .exited⟩ hw
      have c4 := countP_set counted ws i _ ⟨url, ok, .exited⟩ hw
      have c5 := countP_set atStore ws i _ ⟨url, ok, .exited⟩ hw
      simp only [holdsSlot, live, inCS, counted, atStore, if_true, Bool.false_eq_true, if_false,
        Bool.and_false, Bool.and_true, Nat.add_zero] at c1 c2 c3 c4 c5
      constructor
      all_goals (try dsimp only)
      case sem_eq =>
        omega
      case sem_le =>
        omega
      case wg_eq =>
        omega
      case mu_eq =>
        cases mu <;> simp only [↓reduceIte, Bool.false_eq_true] at h4 ⊢ <;> omega
      case store_val =>
        exact forall_mem_set h5 (by simp)
      case locked_ok =>
        exact forall_mem_set h6 (by simp [inLocked])
      case count_eq =>
        omega
      case result =>
        exact forall_mem_set h8 (by simpa using h8 _ hm)
      case urls_eq =>
        rw [map_url_set ⟨url, ok, .exited⟩ hw rfl]; exact h9
      case past_loop =>
        exact h10
      case finished =>
        intro hp; have e := h11 hp _ hm; simp at e
      case summary_out =>
        exact h12
      case done_out =>
        intro hp; have e := h11 (by rw [hp]; rfl) _ hm; simp at e

    · simp at h
  | exited => simp at h

theorem inv_step {r : Run} {s s' : DState} {a : Action} (hi : Inv r s)
    (h : step r s a = some s') : Inv r s' := by
  cases a with
  | main => exact inv_stepMain hi h
  | worker i =>
    unfold step at h
    dsimp only at h
    split at h
    · simp at h
    · rename_i w hw
      exact inv_stepWorker hi hw h

theorem inv_exec {r : Run} : ∀ (sched : List Action) {s s' : DState}, Inv r s →
    exec r s sched = some s' → Inv r s'
  | [], s, s', hi, h => by
    simp only [exec, Option.some.injEq] at h
    exact h ▸ hi
  | a :: as, s, s', hi, h => by
    rw [exec] at h
    split at h
    · simp at h
    · rename_i s1 hs
      exact inv_exec as (inv_step hi hs) h

theorem inv_reachable {r : Run} {s : DState} (h : Reachable r s) : Inv r s := by
  obtain ⟨s0, sched, h0, he⟩ := h
  exact inv_exec sched (inv_init h0) he

theorem successCount_stepMain {r : Run} {s s' : DState} (h : stepMain r s = some s') :
    s'.successCount = s.successCount := by
  unfold stepMain at h
  split at h
  · split at h <;> (simp only [Option.some.injEq] at h; subst h; rfl)
  · split at h
    · simp only [Option.some.injEq] at h; subst h; rfl
    · simp at h
  · simp only [Option.some.injEq] at h; subst h; rfl
  · simp only [Option.some.injEq] at h; subst h; rfl
  · simp only [Option.some.injEq] at h; subst h; rfl
  · simp only [Option.some.injEq] at h; subst h; rfl
  · split at h
    · simp only [Option.some.injEq] at h; subst h; rfl
    · simp at h
  · split at h <;> (simp only [Option.some.injEq] at h; subst h; rfl)
  · simp at h

theorem successCount_stepWorker {r : Run} {s s' : DState} {i : Nat} {w : Worker}
    (hi : Inv r s) (hw : s.workers[i]? = some w) (h : stepWorker r s i w = some s') :
    s'.successCount = s.successCount ∨ s'.successCount = s.successCount + 1 := by
  have hm := mem_of_getElem? hw
  unfold stepWorker at h
  split at h
  · simp only [Option.some.injEq] at h; subst h; exact Or.inl rfl
  · split at h <;> (simp only [Option.some.injEq] at h; subst h; exact Or.inl rfl)
  · split at h
    · simp at h
    · simp only [Option.some.injEq] at h; subst h; exact Or.inl rfl
  · simp only [Option.some.injEq] at h; subst h; exact Or.inl rfl
  · rename_i v hv
    have e : v = s.successCount := hi.store_val w hm v hv
    simp only [Option.some.injEq] at h; subst h
    exact Or.inr (by rw [e])
  · simp only [Option.some.injEq] at h; subst h; exact Or.inl rfl
  · split at h
    · simp only [Option.some.injEq] at h; subst h; exact Or.inl rfl
    · simp at h
  · split at h
    · simp only [Option.some.injEq] at h; subst h; exact Or.inl rfl
    · simp at h
  · simp at h

theorem successCount_step {r : Run} {s s' : DState} {a : Action} (hi : Inv r s)
    (h : step r s a = some s') :
    s'.successCount = s.successCount ∨ s'.successCount = s.successCount + 1 := by
  cases a with
  | main => exact Or.inl (successCount_stepMain h)
  | worker i =>
    unfold step at h
    dsimp only at h
    split at h
    · simp at h
    · rename_i w hw
      exact successCount_stepWorker hi hw h

theorem countP_fetch_le (ws : List Worker) :
    ws.countP (fun w => w.pc = .fetch) ≤ ws.countP holdsSlot := by
  induction ws with
  | nil => simp
  | cons x xs ih =>
    simp only [List.countP_cons]
    have hx : x.pc = .fetch → holdsSlot x = true := by
      intro e; simp [holdsSlot, e]
    by_cases h1 : x.pc = .fetch
    · simp [h1, hx h1, ih]
    · by_cases h2 : holdsSlot x = true
      · simp [h1, h2]; omega
      · simp [h1, h2, ih]

theorem countP_holdsSlot_of_exited {ws : List Worker} (h : ∀ w ∈ ws, w.pc = .exited) :
    ws.countP holdsSlot = 0 := by
  apply List.countP_eq_zero.2
  intro w hw
  simp [holdsSlot, h w hw]

/-- C6: in every state a schedule can reach, once `wg.Wait()` has returned
(so when the summary is emitted) `successCount` is the number of URLs of the
list, with multiplicity, whose `fetchURL` returned true; every summary line
printed reports that number over `len(urls)`, and a run that is not silent
and has returned has printed one; the counter always equals the number of
successful workers that have done their increment, and a step of any thread
leaves it unchanged or adds exactly one. -/
theorem successCount_correct (r : Run) (s : DState) (h : Reachable r s) :
    ((s.pc = .summary ∨ s.pc = .done) → s.successCount = expected r) ∧
    (∀ k n, OutLine.summary k n ∈ s.out → k = expected r ∧ n = r.urls.length) ∧
    (s.pc = .done → r.config.silent = false →
      OutLine.summary (expected r) r.urls.length ∈ s.out) ∧
    s.successCount = s.workers.countP counted ∧
    (∀ a s', step r s a = some s' →
      s'.successCount = s.successCount ∨ s'.successCount = s.successCount + 1) := by
  have hi := inv_reachable h
  refine ⟨?_, hi.summary_out, ?_, hi.count_eq, fun a s' hs => successCount_step hi hs⟩
  · intro hp
    apply successCount_final hi
    rcases hp with hp | hp <;> rw [hp] <;> rfl
  · intro hp hs
    obtain ⟨k, n, hm⟩ := hi.done_out hp hs
    obtain ⟨e1, e2⟩ := hi.summary_out k n hm
    rw [← e1, ← e2]
    exact hm

/-! ## A complete run exists -/

theorem exec_append (r : Run) : ∀ (a b : List Action) (s : DState),
    exec r s (a ++ b) = (exec r s a).bind (fun s1 => exec r s1 b)
  | [], b, s => rfl
  | x :: a, b, s => by
    simp only [List.cons_append, exec]
    cases step r s x with
    | none => rfl
    | some s1 => exact exec_append r a b s1

theorem getElem?_concat_length (ws : List Worker) (w : Worker) :
    (ws ++ [w])[ws.length]? = some w := by
  simp

theorem set_concat_length (ws : List Worker) (w w' : Worker) :
    (ws ++ [w]).set ws.length w' = ws ++ [w'] := by
  induction ws with
  | nil => rfl
  | cons x xs ih => simp [ih]

theorem exec_sequential (r : Run) (hcap : 1 ≤ r.config.threads.toNat) :
    ∀ (pending : List String) (ws : List Worker) (sc : Nat) (out : List OutLine)
      (files : List FileWrite),
      ∃ s', exec r ⟨.loopHead, pending, ws, 0, 0, false, sc, out, files⟩
        (sequentialSchedule r ws.length pending) = some s' ∧ s'.pc = .done := by
  intro pending
  induction pending with
  | nil =>
    intro ws sc out files
    cases hs : r.config.silent <;>
      simp [sequentialSchedule, List.replicate, exec, step, stepMain, hs]
  | cons u rest ih =>
    intro ws sc out files
    have hlt : 0 < r.config.threads.toNat := hcap
    rw [sequentialSchedule, exec_append, exec_append]
    cases hb : (fetchURL u r.config (r.world u)).1
    · obtain ⟨s', h1, h2⟩ := ih (ws ++ [⟨u, false, .exited⟩]) sc
        (out ++ (fetchURL u r.config (r.world u)).2.out)
        (files ++ (fetchURL u r.config (r.world u)).2.writes)
      refine ⟨s', ?_, h2⟩
      rw [← h1]
      simp [workerSchedule, List.replicate, exec, step, stepMain, stepWorker, hlt, hb,
        getElem?_concat_length, set_concat_length]
    · obtain ⟨s', h1, h2⟩ := ih (ws ++ [⟨u, true, .exited⟩]) (sc + 1)
        (out ++ (fetchURL u r.config (r.world u)).2.out)
        (files ++ (fetchURL u r.config (r.world u)).2.writes)
      refine ⟨s', ?_, h2⟩
      rw [← h1]
      simp [workerSchedule, List.replicate, exec, step, stepMain, stepWorker, hlt, hb,
        getElem?_concat_length, set_concat_length]

/-- C8: with `threads = k ≥ 1`, in every state a schedule can reach at most
`k` fetches are in flight and the semaphore holds at most `k` slots; once a
worker has been launched for every URL and all of them have exited the
semaphore holds no slot, which is the case when `wg.Wait()` has returned; and
the sequential schedule does run the dispatcher to its end. -/
theorem parallelism_cap (r : Run) (k : Nat) (hk : 1 ≤ k) (hth : r.config.threads = (k : Int))
    (s : DState) (h : Reachable r s) :
    inFlight s ≤ k ∧ s.sem ≤ k ∧
    (s.workers.length = r.urls.length → (∀ w ∈ s.workers, w.pc = .exited) → s.sem = 0) ∧
    ((s.pc = .summary ∨ s.pc = .done) →
      s.workers.length = r.urls.length ∧ (∀ w ∈ s.workers, w.pc = .exited) ∧ s.sem = 0) ∧
    (∃ s0 s1, init r = some s0 ∧ exec r s0 (sequentialSchedule r 0 r.urls) = some s1 ∧
      s1.pc = .done) := by
  have hi := inv_reachable h
  have hcap : s.sem ≤ k := by
    have := hi.sem_le
    rw [hth] at this
    simpa using this
  have hlen : s.workers.length + (current s.pc).length + s.pending.length = r.urls.length := by
    have := congrArg List.length hi.urls_eq
    simp only [List.length_append, List.length_map] at this
    omega
  have hzero : s.workers.length = r.urls.length → (∀ w ∈ s.workers, w.pc = .exited) →
      s.sem = 0 := by
    intro hl he
    have hs : slotMain s.pc = 0 := by
      have hc : (current s.pc).length = 0 := by omega
      revert hc
      unfold current slotMain
      cases s.pc <;> simp
    rw [hi.sem_eq, countP_holdsSlot_of_exited he, hs]
  refine ⟨?_, hcap, hzero, ?_, ?_⟩
  · have h1 := countP_fetch_le s.workers
    have h2 := hi.sem_eq
    unfold inFlight
    omega
  · intro hp
    have hpw : pastWait s.pc = true := by
      rcases hp with hp | hp <;> rw [hp] <;> rfl
    have hpl : pastLoop s.pc = true := by
      rcases hp with hp | hp <;> rw [hp] <;> rfl
    have hcur : (current s.pc).length = 0 := by
      rcases hp with hp | hp <;> rw [hp] <;> rfl
    have hpend := hi.past_loop hpl
    have hl : s.workers.length = r.urls.length := by
      rw [hpend] at hlen
      simpa [hcur] using hlen
    exact ⟨hl, hi.finished hpw, hzero hl (hi.finished hpw)⟩
  · have hc : 1 ≤ r.config.threads.toNat := by rw [hth]; simpa using hk
    obtain ⟨s1, h1, h2⟩ := exec_sequential r hc r.urls [] 0 [] []
    refine ⟨⟨.loopHead, r.urls, [], 0, 0, false, 0, [], []⟩, s1, ?_, h1, h2⟩
    have hn : ¬ r.config.threads < 0 := by rw [hth]; omega
    simp [init, hn]

/-! ## Concrete runs -/

/-- C2, at two transport errors before the 200 OK and three retries. -/
theorem fetchURL_retry_count_witness :
    0 ≤ sampleConfig.retries ∧
    ((fetchURL "https://h/x" sampleConfig (flakyEnv 2 [111, 107])).1 = true ↔
      ((2 : Nat) : Int) ≤ sampleConfig.retries) :=
  ⟨by decide,
    fetchURL_retry_count "https://h/x" sampleConfig (flakyEnv 2 [111, 107]) 2 [111, 107]
      (by decide) rfl (fun k hk => by simp [flakyEnv, hk]) (by simp [flakyEnv]) rfl⟩

/-- C3, at status 500 and three retries. -/
theorem fetchURL_no_retry_on_non_200_witness :
    (fetchURL "https://h/x" sampleConfig (statusEnv 500)).1 = false ∧
      (fetchURL "https://h/x" sampleConfig (statusEnv 500)).2.calls = 1 ∧
      (fetchURL "https://h/x" sampleConfig (statusEnv 500)).2.writes = [] :=
  fetchURL_no_retry_on_non_200 "https://h/x" sampleConfig (statusEnv 500) 500 (some [])
    (by decide) rfl rfl (by decide)

/-- C4, at a 200 OK with an empty body: one zero-byte file is written. -/
theorem fetchURL_file_effect_witness :
    (fetchURL "https://h/x" sampleConfig (statusEnv 200)).1 = true ∧
    ∃ k body, (statusEnv 200).doResult k = .response 200 (some body) ∧
      (fetchURL "https://h/x" sampleConfig (statusEnv 200)).2.writes =
        [⟨(statusEnv 200).join sampleConfig.directory (sanitizeFilename "https://h/x"), body,
          0o644, true⟩] :=
  ⟨by decide,
    (fetchURL_file_effect "https://h/x" sampleConfig (statusEnv 200)).1 (by decide)⟩

/-- C5 fails on the code: in a silent run of one URL that is fetched at once,
started after the configuration is built, the output is the bare URL and then
the three banner lines, which silent mode was to suppress. -/
theorem silent_run_prints_banner :
    ((start silentConfig (fun _ => statusEnv 200) false (some ["https://h/x"])).bind
      (fun p => exec p.1 p.2 (sequentialSchedule p.1 0 p.1.urls))).map (fun s => (s.pc, s.out)) =
      some (.done, [.bare "https://h/x", .rule, .urlsProvided 1, .rule]) := by
  decide

/-- C6, at the end of a run of two URLs of which one is fetched. -/
theorem successCount_correct_witness :
    Reachable sampleRun sampleFinal ∧ sampleFinal.successCount = expected sampleRun ∧
      OutLine.summary (expected sampleRun) sampleRun.urls.length ∈ sampleFinal.out :=
  have hr : Reachable sampleRun sampleFinal :=
    ⟨⟨.loopHead, sampleRun.urls, [], 0, 0, false, 0, [], []⟩, sampleSchedule, by decide,
      by decide⟩
  ⟨hr, (successCount_correct sampleRun sampleFinal hr).1 (Or.inr rfl),
    (successCount_correct sampleRun sampleFinal hr).2.2.1 rfl rfl⟩

/-- C8, in the middle of a run with two threads: two slots are taken and one
fetch is in flight. -/
theorem parallelism_cap_witness :
    1 ≤ 2 ∧ Reachable sampleRun sampleMid ∧ inFlight sampleMid ≤ 2 ∧ sampleMid.sem ≤ 2 :=
  have hr : Reachable sampleRun sampleMid :=
    ⟨⟨.loopHead, sampleRun.urls, [], 0, 0, false, 0, [], []⟩, sampleSchedule.take 7,
      by decide, by decide⟩
  ⟨by decide, hr, (parallelism_cap sampleRun 2 (by decide) rfl sampleMid hr).1,
    (parallelism_cap sampleRun 2 (by decide) rfl sampleMid hr).2.1⟩

end Fetcher
